import Mathlib

/-!
Verification of the omnidrive-mcp path sandbox, tool dispatcher and
transport layer, as a shallow embedding in Lean 4.

Paths and file contents are modelled as `List Char` (the Rust code works
on UTF-8 strings; every operation the claims touch is character-wise).
Filesystem and network effects are passed in explicitly as oracles
(canonicalization results, ignore-file contents, per-path metadata), so
each Rust function becomes a pure Lean function of its inputs plus the
oracle answers it would have observed.
-/

/-! ### Configuration data model (src-tauri/src/bin/mcp_server/config.rs) -/

/-- Permission of a shared folder. -/
inductive Permission where
  | readOnly
  | readWrite
deriving DecidableEq, Repr

/-- A shared folder entry of the configuration. -/
structure SharedFolder where
  path : List Char
  permission : Permission
  enabled : Bool
  available : Bool
deriving DecidableEq, Repr

/-- The application configuration: folder list plus size limit. -/
structure AppConfig where
  folders : List SharedFolder
  maxFileSizeMb : Nat
deriving DecidableEq, Repr

/-! ### Traversal check (sandbox.rs, validate_path)

`target_str.contains("..")` — true iff the two-character substring `..`
occurs anywhere in the absolute path string. -/

/-- Does the string contain two consecutive dots anywhere? Mirrors
Rust `str::contains("..")`. -/
def containsDotDot : List Char → Bool
  | '.' :: '.' :: _ => true
  | _ :: rest => containsDotDot rest
  | [] => false

/-! ### Glob pattern engine

The exclusion rules of `is_ignored` are compiled and matched with the
`glob` crate (v0.3).  `GlobToken`, `parseP` and `matchTokens` embed that
crate's `Pattern::new` and `Pattern::matches` (with the default
`MatchOptions`: case-sensitive, separators and leading dots not required
to be literal), which is third-party code the repository links against. -/

/-- A character specifier inside a `[...]` class. -/
inductive GlobSpec where
  | single (c : Char)
  | range (lo hi : Char)
deriving Repr

/-- One token of a compiled glob pattern. -/
inductive GlobToken where
  | char (c : Char)
  | anyChar
  | anySeq
  | anyRec
  | anyWithin (specs : List GlobSpec)
  | anyExcept (specs : List GlobSpec)
deriving Repr

/-- Is the token the recursive-wildcard token? -/
def isARS : GlobToken → Bool
  | .anyRec => true
  | _ => false

/-- `in_char_specifiers` with case-sensitive matching. -/
def inCharSpecs (c : Char) (specs : List GlobSpec) : Bool :=
  specs.any fun s =>
    match s with
    | .single a => c == a
    | .range lo hi => decide (lo ≤ c) && decide (c ≤ hi)

/-- `parse_char_specifiers`: `a-b` forms a range when at least three
characters remain, otherwise characters are taken singly. -/
def parseSpecs : List Char → List GlobSpec
  | a :: '-' :: b :: rest => .range a b :: parseSpecs rest
  | a :: rest => .single a :: parseSpecs rest
  | [] => []

/-- Push an `anyRec` token onto the (reversed) accumulator, collapsing
consecutive recursive wildcards exactly as `Pattern::new` does (only
when the accumulator holds more than one token). -/
def pushARS (acc : List GlobToken) : List GlobToken :=
  match acc with
  | t :: _ :: _ => if isARS t then acc else .anyRec :: acc
  | _ => .anyRec :: acc

/-- `glob::Pattern::new`, tokenizing the pattern.  `prevSep` records
whether the previous character was a path separator (or the start of
the pattern), which gates the validity of a `**` run.  `none` is the
crate's `PatternError`.  The first argument is step fuel: every step
consumes at least one input character, so `length + 1` fuel (what
`parsePattern` supplies) is never exhausted; it only makes the
recursion structural. -/
def parsePGo : Nat → List Char → Bool → List GlobToken → Option (List GlobToken)
  | _, [], _, acc => some acc.reverse
  | fuel + 1, '?' :: rest, _, acc => parsePGo fuel rest false (.anyChar :: acc)
  | _ + 1, '*' :: '*' :: '*' :: _, _, _ => none
  | fuel + 1, '*' :: '*' :: rest2, prevSep, acc =>
    if prevSep then
      match rest2 with
      | '/' :: rest3 => parsePGo fuel rest3 true (pushARS acc)
      | [] => some (pushARS acc).reverse
      | _ => none
    else none
  | fuel + 1, '*' :: rest, _, acc => parsePGo fuel rest false (.anySeq :: acc)
  | fuel + 1, '[' :: rest, _, acc =>
    (match rest with
     | '!' :: c0 :: rest3 =>
       if rest3.isEmpty then none
       else
         let j := rest3.findIdx (fun c => c == ']')
         if j < rest3.length then
           parsePGo fuel (rest3.drop (j + 1)) false
             (.anyExcept (parseSpecs (c0 :: rest3.take j)) :: acc)
         else none
     | c0 :: rest2 =>
       if c0 == '!' then none
       else if rest2.isEmpty then none
       else
         let j := rest2.findIdx (fun c => c == ']')
         if j < rest2.length then
           parsePGo fuel (rest2.drop (j + 1)) false
             (.anyWithin (parseSpecs (c0 :: rest2.take j)) :: acc)
         else none
     | [] => none)
  | fuel + 1, c :: rest, _, acc => parsePGo fuel rest (c == '/') (.char c :: acc)
  | 0, _ :: _, _, _ => none

/-- `Pattern::new` on a whole pattern string. -/
def parsePattern (p : List Char) : Option (List GlobToken) :=
  parsePGo (p.length + 1) p true []

/-- The retries a `*` makes: the rest of the pattern (continuation `k`)
is attempted at the current position and after each consumed
character. -/
def seqTries (k : List Char → Bool) : List Char → Bool
  | [] => k []
  | x :: xs => k (x :: xs) || seqTries k xs

/-- The retries a `**` makes while consuming: the rest of the pattern
(continuation `k`) is attempted only at positions that follow a
separator. -/
def sepTries (k : List Char → Bool) : List Char → Bool
  | [] => false
  | x :: xs => ((x == '/') && k xs) || sepTries k xs

/-- `Pattern::matches` with default options, by recursion on the token
list (the retry loops of the two wildcard tokens take the match of the
remaining tokens as a continuation).  `anySeq` may consume any
characters, separators included, since `require_literal_separator` is
false; `anyRec` retries the rest of the pattern at the start and after
each separator, and — via the fall-through once the file is exhausted —
against the empty remainder. -/
def matchTokens : List GlobToken → List Char → Bool
  | [], s => s.isEmpty
  | .char c :: ts, s =>
    (match s with
     | [] => false
     | x :: xs => x == c && matchTokens ts xs)
  | .anyChar :: ts, s =>
    (match s with
     | [] => false
     | _ :: xs => matchTokens ts xs)
  | .anyWithin specs :: ts, s =>
    (match s with
     | [] => false
     | x :: xs => inCharSpecs x specs && matchTokens ts xs)
  | .anyExcept specs :: ts, s =>
    (match s with
     | [] => false
     | x :: xs => !inCharSpecs x specs && matchTokens ts xs)
  | .anySeq :: ts, s => seqTries (matchTokens ts) s
  | .anyRec :: ts, s =>
    matchTokens ts s || sepTries (matchTokens ts) s || matchTokens ts []

/-! ### Exclusion rules (sandbox.rs, is_ignored) -/

/-- The glob string built for one `.mcpignore` rule: a bare name (no
separator) is prefixed with a recursive wildcard so it matches at any
depth. -/
def globForRule (rule : List Char) : List Char :=
  if rule.contains '/' then rule else '*' :: '*' :: '/' :: rule

/-- One rule's match against the relative path: the compiled pattern
itself, or the derived descendants pattern obtained by appending a
separator and a recursive wildcard. -/
def ruleMatches (rule relative : List Char) : Bool :=
  match parsePattern (globForRule rule) with
  | some compiled =>
    matchTokens compiled relative ||
      (match parsePattern (globForRule rule ++ ['/', '*', '*']) with
       | some deep => matchTokens deep relative
       | none => false)
  | none => false

/-- `is_ignored` over the (trimmed) lines of the `.mcpignore` file:
empty lines and `#` comments are skipped, any remaining rule that
matches the relative path excludes it. -/
def isIgnoredLines (lines : List (List Char)) (relative : List Char) : Bool :=
  lines.any fun line =>
    if line.isEmpty || line.headD ' ' == '#' then false
    else ruleMatches line relative

/-! ### validate_path (sandbox.rs) -/

/-- Filesystem answers `validate_path` observes: canonicalization of a
folder path (`none` = the root does not exist / is unreadable) and the
lines of the `.mcpignore` file at a canonical root (`none` = no such
file or it cannot be opened). -/
structure FsView where
  canonicalize : List Char → Option (List Char)
  ignoreLines : List Char → Option (List (List Char))

/-- `Path::strip_prefix` as observed at `is_ignored`'s call site: the
target string extends the root either exactly or after a `/`.  A `\`
boundary (possible on the `starts_with('\\')` branch) makes
`strip_prefix` fail on Unix, which `is_ignored` maps to `false`;
modelled by `none`. -/
def relativeTo (target root : List Char) : Option (List Char) :=
  match target.drop root.length with
  | [] => some []
  | '/' :: r => some r
  | _ => none

/-- `is_ignored(target, folder_root)` with the file contents supplied
by the oracle. -/
def isIgnoredAt (fs : FsView) (target root : List Char) : Bool :=
  match fs.ignoreLines root with
  | none => false
  | some lines =>
    match relativeTo target root with
    | none => false
    | some rel => isIgnoredLines lines rel

/-- The typed denial reasons of the sandbox (each corresponds to one of
the distinct error strings the Rust code returns). -/
inductive DenyReason where
  /-- "Path traversal characters are not allowed" -/
  | traversal
  /-- "is excluded by .mcpignore rules" -/
  | excluded
  /-- "is not within any shared folder" -/
  | notShared
deriving DecidableEq, Repr

/-- Result of a sandbox validation. -/
inductive VResult where
  | ok (folder : SharedFolder) (canonicalPath : List Char)
  | err (reason : DenyReason)
deriving DecidableEq, Repr

/-- Boundary test after the string prefix: the remainder is empty or
starts with a separator. -/
def boundaryOk (rem : List Char) : Bool :=
  match rem with
  | [] => true
  | '/' :: _ => true
  | '\\' :: _ => true
  | _ => false

/-- The folder loop of `validate_path`: first enabled folder whose
canonical root is a boundary-respecting prefix of the target wins;
a matched-but-excluded target is denied immediately. -/
def findFolder (fs : FsView) (target : List Char) : List SharedFolder → VResult
  | [] => .err .notShared
  | folder :: rest =>
    if !folder.enabled then findFolder fs target rest
    else
      match fs.canonicalize folder.path with
      | none => findFolder fs target rest
      | some root =>
        if root.isPrefixOf target && boundaryOk (target.drop root.length) then
          if isIgnoredAt fs target root then .err .excluded
          else .ok folder target
        else findFolder fs target rest

/-- `validate_path` on an absolute target string: the traversal veto
first, then the folder loop. -/
def validatePath (fs : FsView) (target : List Char) (config : AppConfig) : VResult :=
  if containsDotDot target then .err .traversal
  else findFolder fs target config.folders

/-- Convenience: characters of a string literal. -/
def cs (s : String) : List Char := s.data

/-! ### patch_file (src-tauri/src/bin/omnidrive_server/tools.rs)

`patch_file` reads the file once, applies all search/replace operations
and then all line-range operations in memory, and writes the result back
in a single `fs::write` that only runs after every operation succeeded.
The regex engine (the `regex` crate) is abstracted as an oracle: a
compile function that may fail plus the replacement behaviors the code
uses; all theorems below hold for every oracle. -/

/-- One search-and-replace operation of `patch_file`. -/
structure PatchOp where
  search : List Char
  replOp : List Char
  regex : Bool
  count : Option Nat
deriving DecidableEq, Repr

/-- One line-range replacement operation of `patch_file`. -/
structure LinePatchOp where
  startLine : Nat
  endLine : Nat
  content : List Char
deriving DecidableEq, Repr

/-- Behaviors of a compiled regex that `patch_file` uses:
`replaceLimited limit content` is `replace_all` with the counting
closure (replacing the first `limit` matches), `replaceAllFn` is the
unlimited `replace_all`, `countMatches` is `find_iter(...).count()`. -/
structure CompiledRegex where
  replaceLimited : Nat → List Char → List Char
  replaceAllFn : List Char → List Char
  countMatches : List Char → Nat

/-- Typed failures of `patch_file` (each is one of the distinct error
messages the Rust code returns). -/
inductive PatchError where
  /-- "No operations provided." -/
  | noOps
  /-- "Invalid regex in operation i+1" -/
  | invalidRegex (opIndex : Nat)
  /-- "Invalid line range in line_replace op" -/
  | invalidRange (startLine endLine : Nat)
deriving DecidableEq, Repr

/-- Rust `str::find` for a literal pattern: index of its first
occurrence (an empty pattern is found at index 0). -/
def findSub (pat : List Char) : List Char → Option Nat
  | [] => if pat.isEmpty then some 0 else none
  | x :: xs =>
    if pat.isPrefixOf (x :: xs) then some 0
    else (findSub pat xs).map (· + 1)

/-- The literal search-and-replace `while` loop of `patch_file`.  The
fuel argument bounds the iterations; for a non-empty search pattern
`content.length + 1` fuel is never exhausted (the Rust loop does not
terminate on an empty pattern with no count limit). -/
def literalLoop (search repl : List Char) (limit : Nat) :
    Nat → List Char → Nat → List Char × Nat
  | 0, remaining, count => (remaining, count)
  | fuel + 1, remaining, count =>
    match findSub search remaining with
    | none => (remaining, count)
    | some pos =>
      if limit > 0 && limit ≤ count then (remaining, count)
      else
        let rest := remaining.drop (pos + search.length)
        let (tailPart, c) := literalLoop search repl limit fuel rest (count + 1)
        (remaining.take pos ++ repl ++ tailPart, c)

/-- Literal replacement over the whole content. -/
def literalReplace (search repl : List Char) (limit : Nat)
    (content : List Char) : List Char × Nat :=
  literalLoop search repl limit (content.length + 1) content 0

/-- The search/replace pass of `patch_file`: operations are applied
sequentially; a regex operation whose pattern does not compile aborts
the whole call with a typed error. -/
def applySearchOps (compile : List Char → Option CompiledRegex) :
    List PatchOp → Nat → List Char → Except PatchError (List Char)
  | [], _, content => .ok content
  | op :: rest, i, content =>
    if op.regex then
      match compile op.search with
      | none => .error (.invalidRegex i)
      | some re =>
        let limit := op.count.getD 0
        let nc := if limit > 0 then re.replaceLimited limit content
                  else re.replaceAllFn content
        applySearchOps compile rest (i + 1) nc
    else
      applySearchOps compile rest (i + 1)
        (literalReplace op.search op.replOp (op.count.getD 0) content).1

/-- Split a character list at every occurrence of a separator. -/
def splitOnChar (sep : Char) : List Char → List (List Char)
  | [] => [[]]
  | c :: rest =>
    if c = sep then [] :: splitOnChar sep rest
    else
      match splitOnChar sep rest with
      | l :: ls => (c :: l) :: ls
      | [] => [[c]]

/-- Strip one trailing carriage return, as `str::lines` does per line. -/
def stripCr (l : List Char) : List Char :=
  if l.getLast? = some '\r' then l.dropLast else l

/-- Rust `str::lines`: split at newlines, drop the final empty piece
produced by a trailing newline, strip a trailing `\r` from each line. -/
def rustLines (content : List Char) : List (List Char) :=
  let pieces := splitOnChar '\n' content
  let pieces := if pieces.getLast? = some [] then pieces.dropLast else pieces
  pieces.map stripCr

/-- `Vec::splice(start..end, new)` on the line vector. -/
def spliceLines (ls : List (List Char)) (a b : Nat)
    (newLines : List (List Char)) : List (List Char) :=
  ls.take a ++ newLines ++ ls.drop b

/-- The line-replacement pass (already sorted by descending start
line): each operation is range-checked and then spliced; an invalid
range aborts the call with a typed error. -/
def applyLineOps : List LinePatchOp → List (List Char) →
    Except PatchError (List (List Char))
  | [], ls => .ok ls
  | op :: rest, ls =>
    if op.startLine = 0 ∨ op.endLine = 0 ∨ op.endLine < op.startLine then
      .error (.invalidRange op.startLine op.endLine)
    else
      applyLineOps rest
        (spliceLines ls (min (op.startLine - 1) ls.length)
          (min op.endLine ls.length) (rustLines op.content))

/-- The comparator `|a, b| b.start_line.cmp(&a.start_line)` as a
predicate: `a` may precede `b` iff `b.start_line ≤ a.start_line`
(descending). -/
def lineOpLe (a b : LinePatchOp) : Bool :=
  decide (b.startLine ≤ a.startLine)

/-- Stable insertion into a descending-sorted list: the inserted
element (earlier in declaration order than everything already placed)
goes before every element whose start line is not larger. -/
def insertD (a : LinePatchOp) : List LinePatchOp → List LinePatchOp
  | [] => [a]
  | b :: l => if lineOpLe a b then a :: b :: l else b :: insertD a l

/-- `line_ops.sort_by(|a, b| b.start_line.cmp(&a.start_line))`.
Rust's `sort_by` is a stable sort, and a stable sort is a unique
function of its comparator and input; it is embedded here as stable
insertion sort, which computes that same function. -/
def sortLineOps : List LinePatchOp → List LinePatchOp
  | [] => []
  | a :: l => insertD a (sortLineOps l)

/-- `patch_file`'s in-memory computation: the no-op guard, the
search/replace pass, then the line pass on the already-patched content
(operations sorted from highest start line to lowest), joining lines
with newlines and appending a final newline when the joined text lacks
one. -/
def patchFile (compile : List Char → Option CompiledRegex)
    (searchOps : List PatchOp) (lineOps : List LinePatchOp)
    (content : List Char) : Except PatchError (List Char) :=
  if searchOps.isEmpty && lineOps.isEmpty then .error .noOps
  else
    match applySearchOps compile searchOps 0 content with
    | .error e => .error e
    | .ok c1 =>
      if lineOps.isEmpty then .ok c1
      else
        match applyLineOps (sortLineOps lineOps) (rustLines c1) with
        | .error e => .error e
        | .ok ls =>
          let joined := List.intercalate ['\n'] ls
          .ok (if joined.getLast? = some '\n' then joined else joined ++ ['\n'])

/-- The call's effect on the file: the disk content is replaced only
when every operation succeeded (the single `fs::write` runs after the
whole in-memory computation); on any error the disk is untouched. -/
def runPatchFile (compile : List Char → Option CompiledRegex)
    (searchOps : List PatchOp) (lineOps : List LinePatchOp)
    (disk : List Char) : List Char × Except PatchError (List Char) :=
  match patchFile compile searchOps lineOps disk with
  | .ok out => (out, .ok out)
  | .error e => (disk, .error e)

/-! ### unzip_files (tools.rs)

Destination and entry paths are modelled as lists of path components.
`mangled_name` is the zip crate's sanitizer: the raw entry name is
truncated at the first NUL, separators are normalized, and only normal
components survive (no root, no `.`, no `..`). -/

/-- The zip crate's `ZipFile::mangled_name` on an entry name, as the
list of path components it keeps. -/
def mangledName (name : List Char) : List (List Char) :=
  let noNul := name.takeWhile (fun c => c ≠ Char.ofNat 0)
  let norm := noNul.map (fun c => if c = '\\' then '/' else c)
  (splitOnChar '/' norm).filter fun comp =>
    comp != ([] : List Char) && comp != ['.'] && comp != ['.', '.']

/-- What `unzip_files` does with one archive entry. -/
inductive ExtractAction where
  | skip
  | mkdir (path : List (List Char))
  | writeFile (path : List (List Char))
deriving DecidableEq, Repr

/-- The per-entry body of the extraction loop: join the destination
with the mangled name, skip the entry if the result does not start with
the destination, otherwise create the directory or (over)write the
file. -/
def extractEntry (dest : List (List Char)) (entryName : List Char)
    (isDir : Bool) : ExtractAction :=
  let outPath := dest ++ mangledName entryName
  if !dest.isPrefixOf outPath then .skip
  else if isDir then .mkdir outPath
  else .writeFile outPath

/-! ### Pairing middleware (src-tauri/src/bin/mcp_server/sse.rs) -/

/-- An audit journal entry as `log_activity` records it (id, timestamp
and agent are filled in by the logger and carry no decision logic). -/
structure AuditEntry where
  tool : List Char
  category : List Char
  path : Option (List Char)
  summary : List Char
deriving DecidableEq, Repr

/-- `is_origin_approved`: the persisted pairing store is `some list`
when the pairings file was read and parsed, `none` when reading or
parsing failed — in which case no origin is approved. -/
def isOriginApproved (origin : List Char)
    (store : Option (List (List Char))) : Bool :=
  match store with
  | some approved => approved.contains origin
  | none => false

/-- The middleware's response: the inner handler ran, or a 403 refusal
was returned without invoking it. -/
inductive MwResponse where
  | handled
  | forbidden403
deriving DecidableEq, Repr

/-- Observable outcome of one request through `pairing_middleware`. -/
structure MwOutcome where
  response : MwResponse
  audit : List AuditEntry
deriving DecidableEq, Repr

/-- The security audit entry written for a refusal. -/
def securityAudit (origin : List Char) : AuditEntry :=
  { tool := cs "system", category := cs "security", path := none,
    summary := cs "Blocked connection attempt from unapproved origin: " ++ origin }

/-- `pairing_middleware`: requests without an Origin header pass
through; requests with an unapproved origin are refused with 403 and
exactly one security audit entry. -/
def pairingMiddleware (origin : Option (List Char))
    (store : Option (List (List Char))) : MwOutcome :=
  match origin with
  | none => { response := .handled, audit := [] }
  | some o =>
    if isOriginApproved o store then { response := .handled, audit := [] }
    else { response := .forbidden403, audit := [securityAudit o] }

/-! ### batch_read (tools.rs) -/

/-- What the filesystem answers for one requested path of a batch read:
validation failure, not a regular file, metadata error, or a file with
a size, a binary-extension flag and a read result (`none` = the
`read_to_string` failed). -/
inductive BatchPathFs where
  | invalid (reason : DenyReason)
  | notAFile
  | metaError
  | file (size : Nat) (binary : Bool) (readOk : Option (List Char))
deriving DecidableEq, Repr

/-- The per-path outcome recorded inline in the batch result. -/
inductive BatchOutcome where
  | errorEntry
  | skippedBudget
  | skippedBinary
  | content (c : List Char)
deriving DecidableEq, Repr

/-- The loop of `batch_read`: per-path failures are recorded and the
loop continues; a file whose size would push the running total over the
byte budget is skipped; the total grows by the length of each content
actually read. -/
def batchLoop (maxBytes : Nat) : List BatchPathFs → Nat → List BatchOutcome
  | [], _ => []
  | p :: rest, total =>
    match p with
    | .invalid _ => .errorEntry :: batchLoop maxBytes rest total
    | .notAFile => .errorEntry :: batchLoop maxBytes rest total
    | .metaError => .errorEntry :: batchLoop maxBytes rest total
    | .file size bin readOk =>
      if maxBytes < total + size then
        .skippedBudget :: batchLoop maxBytes rest total
      else if bin then
        .skippedBinary :: batchLoop maxBytes rest total
      else
        match readOk with
        | some c => .content c :: batchLoop maxBytes rest (total + c.length)
        | none => .errorEntry :: batchLoop maxBytes rest total

/-- `batch_read`: an empty path list or more than 50 paths fails the
whole call; otherwise every path yields an inline outcome. -/
def batchRead (maxBytes : Nat) (paths : List BatchPathFs) :
    Except (List Char) (List BatchOutcome) :=
  if paths.isEmpty then
    .error (cs "paths array is empty. Provide at least one file path.")
  else if 50 < paths.length then
    .error (cs "Too many paths (max 50). Split into multiple calls.")
  else
    .ok (batchLoop maxBytes paths 0)

/-! ### list_directory pagination (tools.rs) -/

/-- A page of entries, or the out-of-range message. -/
inductive PageResult (α : Type) where
  | page (entries : List α) (pageNum totalItems : Nat)
  | outOfRange (pageNum totalItems : Nat)
deriving DecidableEq, Repr

/-- `page_size.clamp(1, 100)`. -/
def clampPageSize (n : Nat) : Nat :=
  if n < 1 then 1 else if 100 < n then 100 else n

/-- The flat `list_directory` pagination over the sorted, filtered
entry list: page numbers are 1-based, the page size is clamped to
1..100, and a start index at or past the end of a non-empty list yields
the out-of-range message. -/
def listDirectoryPage {α : Type} (entries : List α) (page pageSize : Nat) :
    PageResult α :=
  let s := clampPageSize pageSize
  let p := max page 1
  let start := (p - 1) * s
  if entries.length ≤ start ∧ 0 < entries.length then
    .outOfRange p entries.length
  else
    .page ((entries.drop start).take s) p entries.length

/-! ### Concrete fixtures used by witnesses and examples -/

/-- A filesystem with one canonicalizable root `/r` and no ignore file. -/
def fsOne : FsView :=
  { canonicalize := fun p => if p = cs "/r" then some (cs "/r") else none
    ignoreLines := fun _ => none }

/-- One enabled read-write folder `/r`. -/
def cfgOne : AppConfig :=
  { folders := [{ path := cs "/r", permission := .readWrite,
                  enabled := true, available := true }]
    maxFileSizeMb := 50 }

/-- A filesystem with one canonicalizable root `/a/f` and no ignore file. -/
def fsAF : FsView :=
  { canonicalize := fun p => if p = cs "/a/f" then some (cs "/a/f") else none
    ignoreLines := fun _ => none }

/-- One enabled read-write folder `/a/f`. -/
def cfgAF : AppConfig :=
  { folders := [{ path := cs "/a/f", permission := .readWrite,
                  enabled := true, available := true }]
    maxFileSizeMb := 50 }

/-- A filesystem with one canonicalizable root `/d` and no ignore file. -/
def fsDis : FsView :=
  { canonicalize := fun p => if p = cs "/d" then some (cs "/d") else none
    ignoreLines := fun _ => none }

/-- One folder `/d` that is disabled. -/
def cfgDis : AppConfig :=
  { folders := [{ path := cs "/d", permission := .readWrite,
                  enabled := false, available := true }]
    maxFileSizeMb := 50 }

/-- The folder record of `cfgOne`. -/
def folderR : SharedFolder :=
  { path := cs "/r", permission := .readWrite, enabled := true, available := true }

/-- Root `/r` whose `.mcpignore` holds the single rule `node_modules`. -/
def fsNM : FsView :=
  { canonicalize := fun p => if p = cs "/r" then some (cs "/r") else none
    ignoreLines := fun root =>
      if root = cs "/r" then some [cs "node_modules"] else none }

/-- Root `/r` whose `.mcpignore` holds the single rule `build`. -/
def fsBuild : FsView :=
  { canonicalize := fun p => if p = cs "/r" then some (cs "/r") else none
    ignoreLines := fun root =>
      if root = cs "/r" then some [cs "build"] else none }

/-- Root `/r` whose `.mcpignore` holds the single rule `build/`
(trailing separator). -/
def fsBuildSlash : FsView :=
  { canonicalize := fun p => if p = cs "/r" then some (cs "/r") else none
    ignoreLines := fun root =>
      if root = cs "/r" then some [cs "build/"] else none }

/-- Join path components with `/`, producing the relative path
`is_ignored` matches against. -/
def joinComps : List (List Char) → List Char
  | [] => []
  | [c] => c
  | c :: rest => c ++ '/' :: joinComps rest

/-! ### Claim C2 — the traversal veto -/

/-- Claim C2: any absolute path whose string contains the two-character
substring `..` anywhere — including a filename such as
`archive..old.zip` — is denied with the traversal reason, for every
configuration and every filesystem view; in particular the denial does
not depend on the folder list, so no folder matching is attempted and
no such path is ever validated. -/
theorem c2_traversal_veto (fs : FsView) (config : AppConfig)
    (target : List Char) (h : containsDotDot target = true) :
    validatePath fs target config = .err .traversal := by
  simp [validatePath, h]

/-- Witness for C2: `/r/archive..old.zip` lies inside the enabled
folder `/r` yet is denied with the traversal reason. -/
theorem c2_traversal_veto_witness :
    containsDotDot (cs "/r/archive..old.zip") = true ∧
    validatePath fsOne (cs "/r/archive..old.zip") cfgOne = .err .traversal :=
  ⟨by decide, c2_traversal_veto fsOne cfgOne (cs "/r/archive..old.zip") (by decide)⟩

/-! ### Claim C5 — origin pairing middleware -/

/-- Claim C5: a request whose Origin is not in the persisted
approved-origin set is refused with 403 — the handler is not invoked —
and exactly one security-category audit entry is written; a request
with no Origin header passes through, with no audit entry and without
consulting the approved-origin store (the outcome is the same for every
store). -/
theorem c5_origin_pairing :
    (∀ (o : List Char) (approved : List (List Char)),
        approved.contains o = false →
        pairingMiddleware (some o) (some approved) =
          { response := .forbidden403, audit := [securityAudit o] } ∧
        (securityAudit o).category = cs "security" ∧
        (pairingMiddleware (some o) (some approved)).audit.length = 1) ∧
    (∀ store₁ store₂ : Option (List (List Char)),
        pairingMiddleware none store₁ = { response := .handled, audit := [] } ∧
        pairingMiddleware none store₁ = pairingMiddleware none store₂) := by
  constructor
  · intro o approved h
    have h' : o ∉ approved := by simpa using h
    refine ⟨?_, rfl, ?_⟩ <;> simp [pairingMiddleware, isOriginApproved, h']
  · intro s₁ s₂
    exact ⟨rfl, rfl⟩

/-- Witness for C5: an unapproved origin is refused with one security
entry, and an origin-less request passes. -/
theorem c5_origin_pairing_witness :
    pairingMiddleware (some (cs "https://evil.example")) (some [cs "https://app.example"]) =
      { response := .forbidden403, audit := [securityAudit (cs "https://evil.example")] } ∧
    pairingMiddleware none (some [cs "https://app.example"]) =
      { response := .handled, audit := [] } :=
  ⟨(c5_origin_pairing.1 (cs "https://evil.example") [cs "https://app.example"] (by decide)).1,
   (c5_origin_pairing.2 (some [cs "https://app.example"]) none).1⟩

/-! ### Claim C4 — zip extraction containment -/

/-- Claim C4: every path `unzip_files` creates or writes is the
destination extended by the entry's sanitized components, hence a
descendant of (or equal to) the destination — no file is ever created
outside it; directory entries create directories and file entries
(over)write files. -/
theorem c4_extraction_containment (dest : List (List Char))
    (entryName : List Char) (isDir : Bool) (p : List (List Char)) :
    extractEntry dest entryName true = .mkdir (dest ++ mangledName entryName) ∧
    extractEntry dest entryName false = .writeFile (dest ++ mangledName entryName) ∧
    ((extractEntry dest entryName isDir = .mkdir p ∨
      extractEntry dest entryName isDir = .writeFile p) →
      dest.isPrefixOf p = true) := by
  have hpre : dest.isPrefixOf (dest ++ mangledName entryName) = true :=
    List.isPrefixOf_iff_prefix.mpr (List.prefix_append dest (mangledName entryName))
  refine ⟨?_, ?_, ?_⟩
  · simp [extractEntry, hpre]
  · simp [extractEntry, hpre]
  · intro h
    cases isDir <;> simp [extractEntry, hpre] at h <;> rw [← h] <;> exact hpre

/-- Witness for C4: the classic traversal entry `../../../etc/passwd`
is written inside the destination (its `..` components are dropped by
the sanitizer). -/
theorem c4_extraction_containment_witness :
    extractEntry [cs "home", cs "user", cs "shared"] (cs "../../../etc/passwd") false =
      .writeFile [cs "home", cs "user", cs "shared", cs "etc", cs "passwd"] ∧
    ([cs "home", cs "user", cs "shared"]).isPrefixOf
      [cs "home", cs "user", cs "shared", cs "etc", cs "passwd"] = true := by
  constructor
  · exact (c4_extraction_containment [cs "home", cs "user", cs "shared"]
      (cs "../../../etc/passwd") false []).2.1
  · exact (c4_extraction_containment [cs "home", cs "user", cs "shared"]
      (cs "../../../etc/passwd") false
      [cs "home", cs "user", cs "shared", cs "etc", cs "passwd"]).2.2
      (Or.inr (by decide))

/-! ### Claim C9 — flat list_directory pagination -/

/-- Claim C9: the page size is clamped to 1..100; a returned page `p`
holds exactly the qualifying entries with (0-based) indices
`(p-1)*size` up to `min (p*size) total`; a start index at or past the
end of a non-empty entry list yields the out-of-range message.  Over 25
entries, page 2 with size 10 is exactly entries 11–20 (1-based) and
page 4 is out of range. -/
theorem c9_pagination :
    (∀ (α : Type) (entries : List α) (page pageSize : Nat),
        (1 ≤ clampPageSize pageSize ∧ clampPageSize pageSize ≤ 100) ∧
        (∀ l p t, listDirectoryPage entries page pageSize = .page l p t →
          t = entries.length ∧ p = max page 1 ∧
          l.length = min (clampPageSize pageSize)
            (entries.length - (p - 1) * clampPageSize pageSize) ∧
          ∀ i, i < l.length →
            l[i]? = entries[(p - 1) * clampPageSize pageSize + i]?) ∧
        (entries.length ≤ (max page 1 - 1) * clampPageSize pageSize →
          0 < entries.length →
          listDirectoryPage entries page pageSize =
            .outOfRange (max page 1) entries.length)) ∧
    listDirectoryPage (List.range 25) 2 10 = .page (List.range' 10 10) 2 25 ∧
    listDirectoryPage (List.range 25) 4 10 = .outOfRange 4 25 := by
  refine ⟨?_, by decide, by decide⟩
  intro α entries page pageSize
  refine ⟨⟨?_, ?_⟩, ?_, ?_⟩
  · simp only [clampPageSize]
    split <;> [omega; (split <;> omega)]
  · simp only [clampPageSize]
    split <;> [omega; (split <;> omega)]
  · intro l p t h
    simp only [listDirectoryPage] at h
    split at h
    · simp at h
    · injection h with h1 h2 h3
      subst h1; subst h2; subst h3
      refine ⟨rfl, rfl, ?_, ?_⟩
      · simp [List.length_take, List.length_drop, Nat.min_def]
      · intro i hi
        rw [List.length_take, List.length_drop] at hi
        have hs : i < clampPageSize pageSize :=
          lt_of_lt_of_le hi (inf_le_left)
        rw [List.getElem?_take, if_pos hs, List.getElem?_drop]
  · intro h1 h2
    simp only [listDirectoryPage]
    rw [if_pos ⟨h1, h2⟩]

/-! ### Helper lemmas about the patch engine -/

/-- Inserting into the sorted list is a permutation. -/
theorem insertD_perm (a : LinePatchOp) (l : List LinePatchOp) :
    (insertD a l).Perm (a :: l) := by
  induction l with
  | nil => exact List.Perm.refl _
  | cons b t ih =>
    simp only [insertD]
    split
    · exact List.Perm.refl _
    · exact (ih.cons b).trans (List.Perm.swap a b t)

/-- The stable sort is a permutation of its input. -/
theorem sortLineOps_perm (l : List LinePatchOp) : (sortLineOps l).Perm l := by
  induction l with
  | nil => exact List.Perm.refl _
  | cons a t ih => exact (insertD_perm a (sortLineOps t)).trans (ih.cons a)

/-- Unfolded form of `patchFile` (the `do` block written out as the
underlying case analysis). -/
theorem patchFile_eq (compile : List Char → Option CompiledRegex)
    (sOps : List PatchOp) (lOps : List LinePatchOp) (content : List Char) :
    patchFile compile sOps lOps content =
      if sOps.isEmpty && lOps.isEmpty then .error .noOps
      else
        match applySearchOps compile sOps 0 content with
        | .error e => .error e
        | .ok c1 =>
          if lOps.isEmpty then .ok c1
          else
            match applyLineOps (sortLineOps lOps) (rustLines c1) with
            | .error e => .error e
            | .ok ls =>
              let joined := List.intercalate ['\n'] ls
              .ok (if joined.getLast? = some '\n' then joined
                   else joined ++ ['\n']) := rfl

/-- If some line operation in the list has an empty or inverted range,
the line pass fails with an invalid-range error. -/
theorem applyLineOps_error (ops : List LinePatchOp) (ls : List (List Char))
    (h : ∃ op ∈ ops,
      op.startLine = 0 ∨ op.endLine = 0 ∨ op.endLine < op.startLine) :
    ∃ s t, applyLineOps ops ls = .error (.invalidRange s t) := by
  induction ops generalizing ls with
  | nil => simp at h
  | cons op rest ih =>
    by_cases hv : op.startLine = 0 ∨ op.endLine = 0 ∨ op.endLine < op.startLine
    · exact ⟨op.startLine, op.endLine, by simp [applyLineOps, hv]⟩
    · obtain ⟨op', hmem, hinv⟩ := h
      rcases List.mem_cons.mp hmem with heq | hmem'
      · exact absurd (heq ▸ hinv) hv
      · simpa [applyLineOps, hv] using
          ih (spliceLines ls (min (op.startLine - 1) ls.length)
            (min op.endLine ls.length) (rustLines op.content)) ⟨op', hmem', hinv⟩

/-- If some search operation is a regex whose pattern does not compile,
the search pass fails. -/
theorem applySearchOps_error (compile : List Char → Option CompiledRegex)
    (ops : List PatchOp) (i : Nat) (content : List Char)
    (h : ∃ op ∈ ops, op.regex = true ∧ compile op.search = none) :
    ∃ e, applySearchOps compile ops i content = .error e := by
  induction ops generalizing i content with
  | nil => simp at h
  | cons op rest ih =>
    obtain ⟨op', hmem, hr, hc⟩ := h
    by_cases hreg : op.regex = true
    · cases hcomp : compile op.search with
      | none => exact ⟨.invalidRegex i, by simp [applySearchOps, hreg, hcomp]⟩
      | some re =>
        rcases List.mem_cons.mp hmem with heq | hmem'
        · rw [← heq] at hcomp; rw [hc] at hcomp; exact absurd hcomp (by simp)
        · have := ih (i + 1)
            (if 0 < op.count.getD 0 then re.replaceLimited (op.count.getD 0) content
             else re.replaceAllFn content) ⟨op', hmem', hr, hc⟩
          simpa [applySearchOps, hreg, hcomp] using this
    · rcases List.mem_cons.mp hmem with heq | hmem'
      · exact absurd (heq ▸ hr) hreg
      · simpa [applySearchOps, hreg] using
          ih (i + 1) (literalReplace op.search op.replOp (op.count.getD 0) content).1
            ⟨op', hmem', hr, hc⟩

/-- A line operation with an invalid range fails the whole call with an
invalid-range error once the search pass has succeeded. -/
theorem patchFile_lineError (compile : List Char → Option CompiledRegex)
    (sOps : List PatchOp) (lOps : List LinePatchOp) (content c1 : List Char)
    (op : LinePatchOp)
    (happ : applySearchOps compile sOps 0 content = .ok c1)
    (hmem : op ∈ lOps)
    (hinv : op.startLine = 0 ∨ op.endLine = 0 ∨ op.endLine < op.startLine) :
    ∃ s t, patchFile compile sOps lOps content = .error (.invalidRange s t) := by
  have hne : lOps ≠ [] := by intro hnil; rw [hnil] at hmem; simp at hmem
  have hl : lOps.isEmpty = false := by
    cases lOps with
    | nil => exact absurd rfl hne
    | cons a t => rfl
  have hmem' : op ∈ sortLineOps lOps := ((sortLineOps_perm lOps).mem_iff).mpr hmem
  obtain ⟨s, t, herr⟩ := applyLineOps_error (sortLineOps lOps) (rustLines c1)
    ⟨op, hmem', hinv⟩
  refine ⟨s, t, ?_⟩
  rw [patchFile_eq, happ]
  simp [hl, herr]

/-! ### Claim C6 — trailing newline and range validation (corrected) -/

/-- Counterexample to C6 as stated: patching `a\nb` (no trailing
newline) with one valid line operation succeeds and the result ends
with a newline — trailing-newline presence is not preserved in the
"absent" direction. -/
theorem c6_counterexample :
    patchFile (fun _ => none) []
      [{ startLine := 1, endLine := 1, content := cs "c" }] (cs "a\nb") =
      .ok (cs "c\nb\n") ∧
    (cs "a\nb").getLast? ≠ some '\n' ∧
    (cs "c\nb\n").getLast? = some '\n' :=
  ⟨rfl, by decide, by decide⟩

/-- Claim C6 (amended): after a successful `patch_file` call with at
least one line_replace operation the result always ends with a
trailing newline — one is preserved when the original had it and added
when it did not; and a line_replace operation with `start_line = 0`,
`end_line = 0` or `start_line > end_line` makes the call fail with the
typed invalid-range error (once the search pass succeeded). -/
theorem c6_amended (compile : List Char → Option CompiledRegex)
    (sOps : List PatchOp) (lOps : List LinePatchOp) (content : List Char) :
    (∀ out, lOps ≠ [] → patchFile compile sOps lOps content = .ok out →
      out.getLast? = some '\n') ∧
    (∀ c1 op, applySearchOps compile sOps 0 content = .ok c1 → op ∈ lOps →
      (op.startLine = 0 ∨ op.endLine = 0 ∨ op.startLine > op.endLine) →
      ∃ s t, patchFile compile sOps lOps content = .error (.invalidRange s t)) := by
  constructor
  · intro out hne hok
    have hl : lOps.isEmpty = false := by
      cases lOps with
      | nil => exact absurd rfl hne
      | cons a t => rfl
    rw [patchFile_eq] at hok
    rw [hl] at hok
    simp only [Bool.and_false, if_false] at hok
    cases happ : applySearchOps compile sOps 0 content with
    | error e => rw [happ] at hok; simp at hok
    | ok c1 =>
      rw [happ] at hok
      simp only [hl, Bool.false_eq_true, if_false, ite_false] at hok
      cases hlo : applyLineOps (sortLineOps lOps) (rustLines c1) with
      | error e => rw [hlo] at hok; simp at hok
      | ok ls =>
        rw [hlo] at hok
        simp only [Except.ok.injEq] at hok
        rw [← hok]
        by_cases hj : (List.intercalate ['\n'] ls).getLast? = some '\n'
        · simp [hj]
        · simp [hj, List.getLast?_concat]
  · intro c1 op happ hmem hinv
    exact patchFile_lineError compile sOps lOps content c1 op happ hmem hinv

/-- Witness for C6 (amended): a file with a trailing newline keeps it;
a zero start line fails with the invalid-range error. -/
theorem c6_amended_witness :
    patchFile (fun _ => none) []
      [{ startLine := 2, endLine := 2, content := cs "z" }] (cs "a\nb\n") =
      .ok (cs "a\nz\n") ∧
    (cs "a\nz\n").getLast? = some '\n' ∧
    (∃ s t, patchFile (fun _ => none) []
      [{ startLine := 0, endLine := 1, content := cs "z" }] (cs "a\nb\n") =
      .error (.invalidRange s t)) := by
  refine ⟨rfl, ?_, ?_⟩
  · exact (c6_amended (fun _ => none) []
      [{ startLine := 2, endLine := 2, content := cs "z" }] (cs "a\nb\n")).1
      (cs "a\nz\n") (by decide) rfl
  · exact (c6_amended (fun _ => none) []
      [{ startLine := 0, endLine := 1, content := cs "z" }] (cs "a\nb\n")).2
      (cs "a\nb\n") { startLine := 0, endLine := 1, content := cs "z" }
      rfl (by decide) (by decide)

/-! ### Claim C10 — patch_file atomicity on validation errors -/

/-- Claim C10: if any regex operation fails to compile or any line
operation has an invalid range, the call returns an error and the file
on disk is byte-for-byte unchanged — the single write happens only
after every operation has succeeded. -/
theorem c10_atomicity (compile : List Char → Option CompiledRegex)
    (sOps : List PatchOp) (lOps : List LinePatchOp) (disk : List Char)
    (h : (∃ op ∈ sOps, op.regex = true ∧ compile op.search = none) ∨
         (∃ op ∈ lOps,
           op.startLine = 0 ∨ op.endLine = 0 ∨ op.endLine < op.startLine)) :
    (∃ e, patchFile compile sOps lOps disk = .error e) ∧
    (runPatchFile compile sOps lOps disk).1 = disk := by
  have herr : ∃ e, patchFile compile sOps lOps disk = .error e := by
    rcases h with hs | hl
    · obtain ⟨e, he⟩ := applySearchOps_error compile sOps 0 disk hs
      have hne : sOps.isEmpty = false := by
        obtain ⟨op, hmem, _⟩ := hs
        cases sOps with
        | nil => simp at hmem
        | cons a t => rfl
      refine ⟨e, ?_⟩
      rw [patchFile_eq, hne]
      simp [he]
    · obtain ⟨op, hmem, hinv⟩ := hl
      cases happ : applySearchOps compile sOps 0 disk with
      | error e =>
        have hne : lOps.isEmpty = false := by
          cases lOps with
          | nil => simp at hmem
          | cons a t => rfl
        refine ⟨e, ?_⟩
        rw [patchFile_eq, hne]
        simp [happ]
      | ok c1 =>
        obtain ⟨s, t, herr⟩ :=
          patchFile_lineError compile sOps lOps disk c1 op happ hmem hinv
        exact ⟨.invalidRange s t, herr⟩
  refine ⟨herr, ?_⟩
  obtain ⟨e, he⟩ := herr
  simp [runPatchFile, he]

/-- Witness for C10: an unclosed-parenthesis regex pattern fails to
compile, the call errors and the disk content is unchanged — even
though another operation precedes it in the list. -/
theorem c10_atomicity_witness :
    (∃ e, patchFile (fun _ => none)
      [{ search := cs "a", replOp := cs "b", regex := false, count := none },
       { search := cs "(", replOp := cs "", regex := true, count := none }]
      [] (cs "a line") = .error e) ∧
    (runPatchFile (fun _ => none)
      [{ search := cs "a", replOp := cs "b", regex := false, count := none },
       { search := cs "(", replOp := cs "", regex := true, count := none }]
      [] (cs "a line")).1 = cs "a line" :=
  c10_atomicity (fun _ => none) _ [] (cs "a line")
    (Or.inl ⟨{ search := cs "(", replOp := cs "", regex := true, count := none },
      by decide, rfl, rfl⟩)

/-! ### Claim C8 — batch_read budget semantics (corrected) -/

/-- Every requested path produces exactly one inline outcome. -/
theorem batchLoop_length (maxBytes : Nat) (paths : List BatchPathFs)
    (total : Nat) : (batchLoop maxBytes paths total).length = paths.length := by
  induction paths generalizing total with
  | nil => rfl
  | cons p rest ih =>
    cases p with
    | invalid r => simp [batchLoop, ih]
    | notAFile => simp [batchLoop, ih]
    | metaError => simp [batchLoop, ih]
    | file size bin readOk =>
      simp only [batchLoop]
      split
      · simp [ih]
      · split
        · simp [ih]
        · cases readOk <;> simp [ih]

/-- Counterexample to C8 as stated: with a 10-byte budget, an 11-byte
file is skipped for the budget, but the following 3-byte file is still
read — files after a budget skip are not "no longer accepted". -/
theorem c8_counterexample :
    batchRead 10 [.file 11 false (some (cs "xxxxxxxxxxx")),
                  .file 3 false (some (cs "abc"))] =
      .ok [.skippedBudget, .content (cs "abc")] ∧
    BatchOutcome.content (cs "abc") ≠ .skippedBudget :=
  ⟨rfl, by decide⟩

/-- Claim C8 (amended): a call with zero or more than 50 paths fails as
a whole; otherwise the call never fails — every path yields exactly one
inline outcome and processing continues past per-file errors; a file
whose size would push the running total over the byte budget is
recorded as skipped and leaves the total unchanged, so a later, smaller
file may still be accepted. -/
theorem c8_amended :
    (∀ (maxBytes : Nat) (paths : List BatchPathFs),
        paths ≠ [] → paths.length ≤ 50 →
        ∃ outs, batchRead maxBytes paths = .ok outs ∧
          outs.length = paths.length) ∧
    (∀ (maxBytes : Nat) (paths : List BatchPathFs), 50 < paths.length →
        ∃ e, batchRead maxBytes paths = .error e) ∧
    (∀ maxBytes : Nat, ∃ e, batchRead maxBytes [] = .error e) ∧
    (∀ (maxBytes : Nat) (rest : List BatchPathFs) (total size : Nat)
        (bin : Bool) (r : Option (List Char)), maxBytes < total + size →
        batchLoop maxBytes (.file size bin r :: rest) total =
          .skippedBudget :: batchLoop maxBytes rest total) ∧
    (∀ (maxBytes : Nat) (rest : List BatchPathFs) (total : Nat)
        (reason : DenyReason),
        batchLoop maxBytes (.invalid reason :: rest) total =
          .errorEntry :: batchLoop maxBytes rest total) := by
  refine ⟨?_, ?_, ?_, ?_, ?_⟩
  · intro maxBytes paths hne hle
    have hni : paths.isEmpty = false := by
      cases paths with
      | nil => exact absurd rfl hne
      | cons a t => rfl
    refine ⟨batchLoop maxBytes paths 0, ?_, batchLoop_length maxBytes paths 0⟩
    simp [batchRead, hni, Nat.not_lt.mpr hle]
  · intro maxBytes paths hgt
    have hni : paths.isEmpty = false := by
      cases paths with
      | nil => simp at hgt
      | cons a t => rfl
    exact ⟨cs "Too many paths (max 50). Split into multiple calls.",
      by simp [batchRead, hni, hgt]⟩
  · intro maxBytes
    exact ⟨cs "paths array is empty. Provide at least one file path.",
      by simp [batchRead]⟩
  · intro maxBytes rest total size bin r h
    simp [batchLoop, h]
  · intro maxBytes rest total reason
    simp [batchLoop]

/-- Witness for C8 (amended): two readable files within budget both
come back as content. -/
theorem c8_amended_witness :
    ∃ outs, batchRead 10 [.file 2 false (some (cs "ab")),
                          .file 2 false (some (cs "cd"))] = .ok outs ∧
      outs.length = 2 :=
  c8_amended.1 10 [.file 2 false (some (cs "ab")),
                   .file 2 false (some (cs "cd"))] (by decide) (by decide)

/-! ### Claim C1 — prefix-with-boundary folder matching -/

/-- Soundness of the folder loop: an accepted path is accepted only on
behalf of an enabled folder from the list whose canonical root is a
boundary-respecting string prefix of the target, and the target is not
excluded by that folder's ignore rules. -/
theorem findFolder_sound (fs : FsView) (target : List Char)
    (l : List SharedFolder) (f : SharedFolder) (p : List Char)
    (h : findFolder fs target l = .ok f p) :
    p = target ∧ f ∈ l ∧ f.enabled = true ∧
    ∃ root, fs.canonicalize f.path = some root ∧
      root.isPrefixOf target = true ∧
      boundaryOk (target.drop root.length) = true ∧
      isIgnoredAt fs target root = false := by
  induction l with
  | nil => simp [findFolder] at h
  | cons folder rest ih =>
    simp only [findFolder] at h
    split at h
    · obtain ⟨h1, h2, h3, h4⟩ := ih h
      exact ⟨h1, List.mem_cons_of_mem folder h2, h3, h4⟩
    · rename_i hen
      have he : folder.enabled = true := by
        cases hb : folder.enabled
        · rw [hb] at hen; simp at hen
        · rfl
      split at h
      · obtain ⟨h1, h2, h3, h4⟩ := ih h
        exact ⟨h1, List.mem_cons_of_mem folder h2, h3, h4⟩
      · rename_i root hc
        split at h
        · rename_i hpre
          split at h
          · simp at h
          · rename_i hig
            injection h with hf hp
            have hpre' : root.isPrefixOf target = true ∧
                boundaryOk (target.drop root.length) = true := by
              simpa using hpre
            refine ⟨hp.symm, ?_, ?_, root, ?_, ?_, ?_, ?_⟩
            · rw [← hf]; exact List.mem_cons_self folder rest
            · rw [← hf]; exact he
            · rw [← hf]; exact hc
            · exact hpre'.1
            · exact hpre'.2
            · simpa using hig
        · obtain ⟨h1, h2, h3, h4⟩ := ih h
          exact ⟨h1, List.mem_cons_of_mem folder h2, h3, h4⟩

/-- Claim C1: `validate_path` accepts only when the absolute target
string has some enabled folder's canonical root as a prefix with a
proper boundary (the remainder after the root is empty or begins with a
path separator) and the target is not excluded; a path that merely
shares the root as a string prefix (root `/a/f`, target `/a/foo`) is
denied with the not-within-any-shared-folder reason, as is a path whose
only folder is disabled. -/
theorem c1_prefix_boundary :
    (∀ (fs : FsView) (config : AppConfig) (target : List Char)
        (f : SharedFolder) (p : List Char),
        validatePath fs target config = .ok f p →
        p = target ∧ f ∈ config.folders ∧ f.enabled = true ∧
        ∃ root, fs.canonicalize f.path = some root ∧
          root.isPrefixOf target = true ∧
          boundaryOk (target.drop root.length) = true ∧
          isIgnoredAt fs target root = false) ∧
    validatePath fsAF (cs "/a/foo") cfgAF = .err .notShared ∧
    validatePath fsDis (cs "/d/x") cfgDis = .err .notShared := by
  refine ⟨?_, by decide, by decide⟩
  intro fs config target f p h
  by_cases hdot : containsDotDot target = true
  · rw [validatePath, if_pos hdot] at h; simp at h
  · rw [validatePath, if_neg hdot] at h
    exact findFolder_sound fs target config.folders f p h

/-- Witness for C1: a path inside `/a/f` with a separator boundary is
accepted, and the theorem recovers the boundary facts. -/
theorem c1_prefix_boundary_witness :
    (cs "/a/f/x.txt") = cs "/a/f/x.txt" ∧
    ∃ root, fsAF.canonicalize (cs "/a/f") = some root ∧
      root.isPrefixOf (cs "/a/f/x.txt") = true ∧
      boundaryOk ((cs "/a/f/x.txt").drop root.length) = true := by
  have h := c1_prefix_boundary.1 fsAF cfgAF (cs "/a/f/x.txt")
    { path := cs "/a/f", permission := .readWrite,
      enabled := true, available := true }
    (cs "/a/f/x.txt") (by decide)
  obtain ⟨h1, _, _, root, hc, hp, hb, _⟩ := h
  exact ⟨rfl, root, hc, hp, hb⟩

/-! ### Claim C7 — declaration-order invariance of line patches -/

/-- Inserting into a descending-sorted list keeps it sorted. -/
theorem insertD_sorted (a : LinePatchOp) (l : List LinePatchOp)
    (h : l.Pairwise (fun x y => y.startLine ≤ x.startLine)) :
    (insertD a l).Pairwise (fun x y => y.startLine ≤ x.startLine) := by
  induction l with
  | nil => simp [insertD]
  | cons b t ih =>
    rcases List.pairwise_cons.mp h with ⟨hb, ht⟩
    simp only [insertD]
    split
    · rename_i hle
      have hle' : b.startLine ≤ a.startLine := by simpa [lineOpLe] using hle
      refine List.pairwise_cons.mpr ⟨?_, h⟩
      intro y hy
      rcases List.mem_cons.mp hy with rfl | hyt
      · exact hle'
      · exact le_trans (hb y hyt) hle'
    · rename_i hgt
      have hgt' : a.startLine < b.startLine := by
        simp [lineOpLe] at hgt
        omega
      refine List.pairwise_cons.mpr ⟨?_, ih ht⟩
      intro y hy
      rcases List.mem_cons.mp ((insertD_perm a t).mem_iff.mp hy) with rfl | hyt
      · exact le_of_lt hgt'
      · exact hb y hyt

/-- The stable sort produces a descending-sorted list. -/
theorem sortLineOps_sorted (l : List LinePatchOp) :
    (sortLineOps l).Pairwise (fun x y => y.startLine ≤ x.startLine) := by
  induction l with
  | nil => simp [sortLineOps]
  | cons a t ih => exact insertD_sorted a (sortLineOps t) ih

/-- Two lists that are permutations of each other and both strictly
descending in start line are equal. -/
theorem sorted_strict_unique (l₁ : List LinePatchOp) :
    ∀ l₂ : List LinePatchOp, l₁.Perm l₂ →
    l₁.Pairwise (fun a b => b.startLine < a.startLine) →
    l₂.Pairwise (fun a b => b.startLine < a.startLine) → l₁ = l₂ := by
  induction l₁ with
  | nil =>
    intro l₂ hperm _ _
    have := hperm.length_eq
    cases l₂ with
    | nil => rfl
    | cons b t => simp at this
  | cons a t ih =>
    intro l₂ hperm h1 h2
    cases l₂ with
    | nil =>
      have := hperm.length_eq
      simp at this
    | cons b t₂ =>
      have hab : a = b := by
        by_contra hne
        have ha2 : a ∈ b :: t₂ := hperm.mem_iff.mp (List.mem_cons_self a t)
        have hb1 : b ∈ a :: t := hperm.mem_iff.mpr (List.mem_cons_self b t₂)
        have ha2' : a ∈ t₂ := by
          rcases List.mem_cons.mp ha2 with h | h
          · exact absurd h hne
          · exact h
        have hb1' : b ∈ t := by
          rcases List.mem_cons.mp hb1 with h | h
          · exact absurd h.symm hne
          · exact h
        have hlt1 := (List.pairwise_cons.mp h1).1 b hb1'
        have hlt2 := (List.pairwise_cons.mp h2).1 a ha2'
        omega
      subst hab
      have ht : t.Perm t₂ := hperm.cons_inv
      exact congrArg (a :: ·)
        (ih t₂ ht (List.pairwise_cons.mp h1).2 (List.pairwise_cons.mp h2).2)

/-- For operation lists with pairwise distinct start lines, the sorted
order is the same for every declaration order. -/
theorem sortLineOps_eq (l₁ l₂ : List LinePatchOp)
    (hperm : l₁.Perm l₂)
    (hdist : l₁.Pairwise (fun a b => a.startLine ≠ b.startLine)) :
    sortLineOps l₁ = sortLineOps l₂ := by
  have hsymm : ∀ {x y : LinePatchOp},
      x.startLine ≠ y.startLine → y.startLine ≠ x.startLine :=
    fun h => h.symm
  have hd₁ : (sortLineOps l₁).Pairwise (fun a b => a.startLine ≠ b.startLine) :=
    (List.Perm.pairwise_iff hsymm (sortLineOps_perm l₁)).mpr hdist
  have hdist₂ : l₂.Pairwise (fun a b => a.startLine ≠ b.startLine) :=
    (List.Perm.pairwise_iff hsymm hperm).mp hdist
  have hd₂ : (sortLineOps l₂).Pairwise (fun a b => a.startLine ≠ b.startLine) :=
    (List.Perm.pairwise_iff hsymm (sortLineOps_perm l₂)).mpr hdist₂
  have hstrict₁ : (sortLineOps l₁).Pairwise
      (fun a b => b.startLine < a.startLine) :=
    ((sortLineOps_sorted l₁).and hd₁).imp
      (fun h => Nat.lt_of_le_of_ne h.1 h.2.symm)
  have hstrict₂ : (sortLineOps l₂).Pairwise
      (fun a b => b.startLine < a.startLine) :=
    ((sortLineOps_sorted l₂).and hd₂).imp
      (fun h => Nat.lt_of_le_of_ne h.1 h.2.symm)
  have hp : (sortLineOps l₁).Perm (sortLineOps l₂) :=
    (sortLineOps_perm l₁).trans (hperm.trans (sortLineOps_perm l₂).symm)
  exact sorted_strict_unique (sortLineOps l₁) (sortLineOps l₂) hp hstrict₁ hstrict₂

/-- Claim C7: when the line operations of one call have pairwise
non-overlapping, valid ranges, the final content is the same for every
permutation of their declaration order — internally the operations are
applied sorted from highest start line to lowest, and with distinct
start lines that sorted order does not depend on the declaration
order. -/
theorem c7_declaration_order (compile : List Char → Option CompiledRegex)
    (sOps : List PatchOp) (l₁ l₂ : List LinePatchOp) (content : List Char)
    (hperm : l₁.Perm l₂)
    (hvalid : ∀ op ∈ l₁, 1 ≤ op.startLine ∧ op.startLine ≤ op.endLine)
    (hsep : l₁.Pairwise
      (fun a b => a.endLine < b.startLine ∨ b.endLine < a.startLine)) :
    patchFile compile sOps l₁ content = patchFile compile sOps l₂ content := by
  have hdist : l₁.Pairwise (fun a b => a.startLine ≠ b.startLine) := by
    refine List.Pairwise.imp_of_mem ?_ hsep
    intro a b ha hb hr
    have hva := hvalid a ha
    have hvb := hvalid b hb
    rcases hr with h | h <;> omega
  have hsort := sortLineOps_eq l₁ l₂ hperm hdist
  have hempty : l₁.isEmpty = l₂.isEmpty := by
    have := hperm.length_eq
    cases l₁ <;> cases l₂ <;> simp_all
  rw [patchFile_eq compile sOps l₁ content, patchFile_eq compile sOps l₂ content,
    hsort, hempty]

/-- Witness for C7: replacing lines 10–12 and lines 1–3 gives the same
result in either declaration order. -/
theorem c7_declaration_order_witness :
    patchFile (fun _ => none) []
      [{ startLine := 10, endLine := 12, content := cs "X" },
       { startLine := 1, endLine := 3, content := cs "Y" }]
      (cs "a\nb\nc\nd\ne\nf\ng\nh\ni\nj\nk\nl\nm\n") =
    patchFile (fun _ => none) []
      [{ startLine := 1, endLine := 3, content := cs "Y" },
       { startLine := 10, endLine := 12, content := cs "X" }]
      (cs "a\nb\nc\nd\ne\nf\ng\nh\ni\nj\nk\nl\nm\n") :=
  c7_declaration_order (fun _ => none) [] _ _ _
    (by decide) (by decide) (by decide)

/-- Witness for C9: instantiating the page characterization on 25
entries, page 2, size 10. -/
theorem c9_pagination_witness :
    (List.range' 10 10).length =
      min (clampPageSize 10)
        ((List.range 25).length - (max 2 1 - 1) * clampPageSize 10) ∧
    (List.range' 10 10)[0]? =
      (List.range 25)[(max 2 1 - 1) * clampPageSize 10 + 0]? := by
  have h := ((c9_pagination.1 Nat (List.range 25) 2 10).2.1)
    (List.range' 10 10) 2 25 (by decide)
  exact ⟨h.2.2.1, h.2.2.2 0 (by decide)⟩

/-! ### Claim C3 — exclusion rules (corrected)

General lemmas about parsing and matching the two glob patterns built
for a bare rule, leading to: a bare rule excludes a matching component
at any depth, while a rule with a trailing separator (such as `build/`)
matches nothing that `strip_prefix` can produce. -/

/-- Consuming plain characters (no wildcard or class syntax, no
separator) emits one `char` token each and leaves `prevSep` false. -/
theorem parsePGo_plain (xs : List Char) :
    ∀ (rest : List Char) (fuel : Nat) (p : Bool) (acc : List GlobToken),
    (∀ c ∈ xs, c ≠ '*' ∧ c ≠ '?' ∧ c ≠ '[' ∧ c ≠ '/') →
    parsePGo (fuel + xs.length) (xs ++ rest) p acc =
      parsePGo fuel rest (if xs.isEmpty then p else false)
        ((xs.map GlobToken.char).reverse ++ acc) := by
  induction xs with
  | nil => intro rest fuel p acc h; simp
  | cons c t ih =>
    intro rest fuel p acc h
    obtain ⟨hs, hq, hb, hsl⟩ := h c (List.mem_cons_self c t)
    have hstep : parsePGo (fuel + (c :: t).length) ((c :: t) ++ rest) p acc =
        parsePGo (fuel + t.length) (t ++ rest) (c == '/') (.char c :: acc) := by
      show parsePGo ((fuel + t.length) + 1) (c :: (t ++ rest)) p acc = _
      rw [parsePGo.eq_def]
      split <;> simp_all
    rw [hstep,
      ih rest fuel (c == '/') (.char c :: acc)
        (fun x hx => h x (List.mem_cons_of_mem c hx))]
    have hcsl : (c == '/') = false := by simpa using hsl
    simp [hcsl, List.reverse_cons, List.append_assoc]

/-- Pushing a recursive wildcard onto an accumulator whose top is a
literal character never collapses. -/
theorem pushARS_char (d : Char) (l : List GlobToken) :
    pushARS (.char d :: l) = .anyRec :: .char d :: l := by
  cases l <;> simp [pushARS, isARS]

/-- `Pattern::new` on the bare-name pattern built by `is_ignored`. -/
theorem parseBare (rule : List Char)
    (h : ∀ c ∈ rule, c ≠ '*' ∧ c ≠ '?' ∧ c ≠ '[' ∧ c ≠ '/') :
    parsePattern ('*' :: '*' :: '/' :: rule) =
      some (.anyRec :: rule.map .char) := by
  have h1 : parsePattern ('*' :: '*' :: '/' :: rule) =
      parsePGo (rule.length + 3) rule true [.anyRec] := rfl
  rw [h1, Nat.add_comm rule.length 3]
  have h3 := parsePGo_plain rule [] 3 true [.anyRec] h
  rw [List.append_nil] at h3
  rw [h3]
  simp [parsePGo]

/-- `Pattern::new` on the derived descendants pattern built by
`is_ignored` for a bare name. -/
theorem parseDeep (rule : List Char)
    (h : ∀ c ∈ rule, c ≠ '*' ∧ c ≠ '?' ∧ c ≠ '[' ∧ c ≠ '/') :
    parsePattern ('*' :: '*' :: '/' :: (rule ++ ['/', '*', '*'])) =
      some (.anyRec :: (rule.map .char ++ [.char '/', .anyRec])) := by
  have h1 : parsePattern ('*' :: '*' :: '/' :: (rule ++ ['/', '*', '*'])) =
      parsePGo ((rule ++ ['/', '*', '*']).length + 3)
        (rule ++ ['/', '*', '*']) true [.anyRec] := rfl
  have h2 : (rule ++ ['/', '*', '*']).length + 3 = 6 + rule.length := by
    simp [List.length_append]
    omega
  rw [h1, h2, parsePGo_plain rule ['/', '*', '*'] 6 true [.anyRec] h]
  have h4 : ∀ (pv : Bool) (acc : List GlobToken),
      parsePGo 6 ['/', '*', '*'] pv acc =
        some (pushARS (.char '/' :: acc)).reverse := fun pv acc => rfl
  rw [h4, pushARS_char]
  simp [List.reverse_cons, List.reverse_append, List.append_assoc]

/-- Literal tokens consume exactly their own characters. -/
theorem matchTokens_lit (xs : List Char) :
    ∀ (ts : List GlobToken) (s : List Char),
    matchTokens (xs.map GlobToken.char ++ ts) (xs ++ s) = matchTokens ts s := by
  induction xs with
  | nil => intro ts s; rfl
  | cons c t ih => intro ts s; simp [matchTokens, ih]

/-- Literal tokens match their own characters. -/
theorem matchTokens_lit_self (xs : List Char) :
    matchTokens (xs.map GlobToken.char) xs = true := by
  simpa using matchTokens_lit xs [] []

/-- The separator retries find a continuation that holds right after a
separator. -/
theorem sepTries_append (k : List Char → Bool) (p rest : List Char)
    (h : k rest = true) : sepTries k (p ++ '/' :: rest) = true := by
  induction p with
  | nil => simp [sepTries, h]
  | cons x xs ih => simp [sepTries, ih]

/-- The separator retries survive extending the string on the left by a
chunk and a separator. -/
theorem sepTries_mono (k : List Char → Bool) (p s : List Char)
    (h : sepTries k s = true) : sepTries k (p ++ '/' :: s) = true := by
  induction p with
  | nil => simp [sepTries, h]
  | cons x xs ih => simp [sepTries, ih]

/-- A trailing recursive wildcard matches any remainder. -/
theorem matchTokens_ars_any (s : List Char) :
    matchTokens [.anyRec] s = true := by
  show (matchTokens [] s || sepTries (matchTokens []) s || matchTokens [] []) = true
  have h : matchTokens [] [] = true := rfl
  simp [h]

/-- A pattern headed by a recursive wildcard that matches `s` also
matches `s` prefixed by any chunk and a separator. -/
theorem ars_lift (ts : List GlobToken) (s p : List Char)
    (h : matchTokens (.anyRec :: ts) s = true) :
    matchTokens (.anyRec :: ts) (p ++ '/' :: s) = true := by
  have hexp : ∀ u : List Char, matchTokens (.anyRec :: ts) u =
      (matchTokens ts u || sepTries (matchTokens ts) u || matchTokens ts []) :=
    fun u => rfl
  rw [hexp] at h
  rw [hexp]
  simp only [Bool.or_eq_true] at h ⊢
  rcases h with (h1 | h2) | h3
  · exact Or.inl (Or.inr (sepTries_append _ p s h1))
  · exact Or.inl (Or.inr (sepTries_mono _ p s h2))
  · exact Or.inr h3

/-- For a plain bare rule, `ruleMatches` is the disjunction of the two
compiled patterns. -/
theorem ruleMatches_eq (rule : List Char)
    (h : ∀ c ∈ rule, c ≠ '*' ∧ c ≠ '?' ∧ c ≠ '[' ∧ c ≠ '/')
    (rel : List Char) :
    ruleMatches rule rel =
      (matchTokens (.anyRec :: rule.map .char) rel ||
       matchTokens (.anyRec :: (rule.map .char ++ [.char '/', .anyRec])) rel) := by
  have hns : rule.contains '/' = false := by
    have : '/' ∉ rule := fun hm => (h '/' hm).2.2.2 rfl
    simpa using this
  have hg : globForRule rule = '*' :: '*' :: '/' :: rule := by
    unfold globForRule
    rw [hns]
    simp
  simp [ruleMatches, hg, parseBare rule h, parseDeep rule h]

/-- A plain bare rule matches the joined components whenever it occurs
among them — at any depth. -/
theorem ruleMatches_of_mem (rule : List Char)
    (h : ∀ c ∈ rule, c ≠ '*' ∧ c ≠ '?' ∧ c ≠ '[' ∧ c ≠ '/') :
    ∀ comps : List (List Char), rule ∈ comps →
    ruleMatches rule (joinComps comps) = true := by
  intro comps
  induction comps with
  | nil => intro hmem; simp at hmem
  | cons c cs ih =>
    intro hmem
    rw [ruleMatches_eq rule h]
    rcases List.mem_cons.mp hmem with rfl | hmem'
    · cases cs with
      | nil =>
        have h1 : matchTokens (.anyRec :: rule.map GlobToken.char) rule = true := by
          simp [matchTokens, matchTokens_lit_self rule]
        simp [joinComps, h1]
      | cons d ds =>
        have h2 : matchTokens (rule.map GlobToken.char ++ [.char '/', .anyRec])
            (rule ++ '/' :: joinComps (d :: ds)) = true := by
          rw [matchTokens_lit rule [.char '/', .anyRec] ('/' :: joinComps (d :: ds))]
          simp [matchTokens, matchTokens_ars_any]
        have h1 : matchTokens
            (.anyRec :: (rule.map GlobToken.char ++ [.char '/', .anyRec]))
            (rule ++ '/' :: joinComps (d :: ds)) = true := by
          show (matchTokens (rule.map GlobToken.char ++ [.char '/', .anyRec])
              (rule ++ '/' :: joinComps (d :: ds)) || _ || _) = true
          rw [h2]
          simp
        have hj : joinComps (rule :: d :: ds) =
            rule ++ '/' :: joinComps (d :: ds) := rfl
        rw [hj]
        simp [h1]
    · have hcs : cs ≠ [] := by
        intro hnil
        rw [hnil] at hmem'
        simp at hmem'
      have ihv := ih hmem'
      rw [ruleMatches_eq rule h] at ihv
      have hj : joinComps (c :: cs) = c ++ '/' :: joinComps cs := by
        cases cs with
        | nil => exact absurd rfl hcs
        | cons d ds => rfl
      rw [hj]
      simp only [Bool.or_eq_true] at ihv
      rcases ihv with h1 | h2
      · have := ars_lift (rule.map GlobToken.char) (joinComps cs) c h1
        simp [this]
      · have := ars_lift (rule.map GlobToken.char ++ [.char '/', .anyRec])
          (joinComps cs) c h2
        simp only [Bool.or_eq_true]
        exact Or.inr this

/-- Counterexample to C3 as stated: with the rule `build/` (trailing
separator), a descendant file of the `build` directory is validated —
not denied with the excluded-by-rule reason.  The derived descendants
pattern for this rule contains a doubled separator (`build//**`) that
no relative path ever has, and the base pattern requires a trailing
separator, so the rule matches nothing. -/
theorem c3_counterexample :
    validatePath fsBuildSlash (cs "/r/build/sub/file.txt") cfgOne =
      .ok folderR (cs "/r/build/sub/file.txt") ∧
    isIgnoredLines [cs "build/"] (cs "build/sub/file.txt") = false := by
  exact ⟨by decide, by decide⟩

/-- Claim C3 (amended): a bare-name rule (no separator, no wildcard or
class syntax, not a comment) excludes a matching component at any depth
— in particular `root/node_modules` and `root/pkg/node_modules/x/y` are
both denied with the excluded-by-rule reason, which is a different
reason from not-within-any-shared-folder — and a rule with no trailing
separator (`build`) also excludes everything beneath a matching
directory; but a rule ending in a path separator (`build/`) excludes
nothing: neither the directory itself nor its descendants. -/
theorem c3_amended :
    (∀ (rule : List Char) (comps : List (List Char)),
        (∀ c ∈ rule, c ≠ '*' ∧ c ≠ '?' ∧ c ≠ '[' ∧ c ≠ '/') →
        rule ≠ [] → rule.headD ' ' ≠ '#' →
        rule ∈ comps →
        isIgnoredLines [rule] (joinComps comps) = true) ∧
    DenyReason.excluded ≠ DenyReason.notShared ∧
    validatePath fsNM (cs "/r/node_modules") cfgOne = .err .excluded ∧
    validatePath fsNM (cs "/r/pkg/node_modules/x/y") cfgOne = .err .excluded ∧
    validatePath fsNM (cs "/r/pkg/other/file.txt") cfgOne =
      .ok folderR (cs "/r/pkg/other/file.txt") ∧
    validatePath fsBuild (cs "/r/build/sub/file.txt") cfgOne = .err .excluded ∧
    validatePath fsBuildSlash (cs "/r/build") cfgOne =
      .ok folderR (cs "/r/build") := by
  refine ⟨?_, by decide, by decide, by decide, by decide, by decide, by decide⟩
  intro rule comps hplain hne hnc hmem
  have h1 : rule.isEmpty = false := by
    cases rule with
    | nil => exact absurd rfl hne
    | cons a t => rfl
  simp [isIgnoredLines, ruleMatches_of_mem rule hplain comps hmem]
  exact ⟨hne, by simpa using hnc⟩

/-- Witness for C3 (amended): the bare rule `node_modules` excludes the
relative path `pkg/node_modules/x` in which it occurs as a middle
component. -/
theorem c3_amended_witness :
    isIgnoredLines [cs "node_modules"]
      (joinComps [cs "pkg", cs "node_modules", cs "x"]) = true :=
  c3_amended.1 (cs "node_modules") [cs "pkg", cs "node_modules", cs "x"]
    (by decide) (by decide) (by decide) (by decide)
